import Mathlib

/-!
Verification development for the copynotice tool (src/main.cpp).

File contents are modelled as lists of characters (one character per byte of
the file).  The notice-insertion rewrite engine `program::instance::create_file`
(src/main.cpp lines 626-735), the overwrite-confirmation state machine, the
per-file counter of `program::instance::iterate` (lines 570-624) and the
recursive directory expansion `program::instance::target_directories`
(lines 499-554) are embedded below.
-/

namespace Copynotice

/-- The CRLF line terminator written by the program (the local array
`newline` at src/main.cpp line 695). -/
def crlf : List Char := ['\r', '\n']

/-- Modelled from the spec: `wdul::freadline` is declared in the wdul library,
whose source is not part of this repository.  Per spec section 4.3 step 2 it
reads "the first logical line (delimited by a line terminator)", the line
excluding its terminator.  Terminators are CRLF or a bare LF (a CR immediately
followed by LF is consumed as one terminator; a lone CR is ordinary content).
`splitLine s` returns the first line and the remaining content after the
terminator; on input with no terminator the whole input is the line. -/
def splitLine : List Char → List Char × List Char
  | [] => ([], [])
  | c :: rest =>
    if c = '\n' then ([], rest)
    else if c = '\r' ∧ rest.head? = some '\n' then ([], rest.tail)
    else ((c :: (splitLine rest).1), (splitLine rest).2)

/-- Modelled from the spec: `wdul::freadline` returns false exactly when the
stream has no first line (the stream is at end of file), otherwise it yields
the first line and leaves the stream at the remaining content. -/
def freadline : List Char → Option (List Char × List Char)
  | [] => none
  | c :: rest => some (splitLine (c :: rest))

/-- The comment-stripping loop of `create_file` (src/main.cpp lines 679-693):
with `/replace` set and the first line a comment, lines are read and discarded
while they keep starting with the comment prefix; the first line that does not
is retained together with the remaining stream.  Reading a line succeeds
exactly when the stream is non-empty, so the loop condition `freadline`
returning true is rendered as the stream being non-empty.  If the stream ends
while still inside comments, the loop exits with the previously read line
retained and nothing left to copy. -/
def stripLoop (pfx prev : List Char) (s : List Char) : List Char × List Char :=
  if s = [] then (prev, [])
  else if pfx.isPrefixOf (splitLine s).1 then
    stripLoop pfx (splitLine s).1 (splitLine s).2
  else splitLine s
termination_by s.length
decreasing_by
  have key : ∀ t : List Char, (splitLine t).2.length ≤ t.length := by
    intro t
    induction t with
    | nil => simp [splitLine]
    | cons c rest ih =>
      simp only [splitLine]
      split
      · simp
      · split
        · cases rest <;> simp_all <;> omega
        · simpa using Nat.le_succ_of_le ih
  rename_i hne hpf
  cases s with
  | nil => exact absurd rfl hne
  | cons c rest =>
    simp only [splitLine]
    split
    · simp
    · split
      · cases rest <;> simp <;> omega
      · simpa using Nat.lt_succ_of_le (key rest)

/-- Stated from the spec's words for comparison with the code (spec section 8:
"the source content with all leading prefix-prefixed lines stripped"): drop
whole lines, terminators included, while they start with the prefix; the rest
of the content is kept verbatim. -/
def stripLeadingComments (pfx : List Char) (s : List Char) : List Char :=
  if s = [] then s
  else if pfx.isPrefixOf (splitLine s).1 then
    stripLeadingComments pfx (splitLine s).2
  else s
termination_by s.length
decreasing_by
  have key : ∀ t : List Char, (splitLine t).2.length ≤ t.length := by
    intro t
    induction t with
    | nil => simp [splitLine]
    | cons c rest ih =>
      simp only [splitLine]
      split
      · simp
      · split
        · cases rest <;> simp_all <;> omega
        · simpa using Nat.le_succ_of_le ih
  rename_i hne hpf
  cases s with
  | nil => exact absurd rfl hne
  | cons c rest =>
    simp only [splitLine]
    split
    · simp
    · split
      · cases rest <;> simp <;> omega
      · simpa using Nat.lt_succ_of_le (key rest)

/-- The notice-writing do-while loop of `create_file` (src/main.cpp lines
697-720) as a character stream transducer: at each line start the comment
prefix is written, then notice characters are copied until the next CRLF of
the notice, each CRLF of the notice becomes a written CRLF followed by the
prefix of the next line, and the final line is closed with a written CRLF.
`noticeBlockAux` produces everything after the first written prefix. -/
def noticeBlockAux (pfx : List Char) : List Char → List Char
  | [] => crlf
  | '\r' :: '\n' :: rest => crlf ++ pfx ++ noticeBlockAux pfx rest
  | c :: rest => c :: noticeBlockAux pfx rest

/-- The complete notice block written by the do-while loop at src/main.cpp
lines 699-720: one comment line per CRLF-separated segment of the notice,
each line being prefix, segment, CRLF.  The loop is do-while, so it runs at
least once even for an empty notice. -/
def noticeBlock (pfx notice : List Char) : List Char :=
  pfx ++ noticeBlockAux pfx notice

/-- Content written to the destination file by `create_file` (src/main.cpp
lines 669-731) for a given source file content: `none` when the source is
empty (no first line, early return at line 676, nothing written), otherwise
the notice block, then the retained first code line, then an unconditional
CRLF (line 724), then the remaining source bytes copied unmodified
(lines 727-731). -/
def createFileContent (pfx notice : List Char) (replace : Bool) (src : List Char) :
    Option (List Char) :=
  match freadline src with
  | none => none
  | some (l0, r0) =>
    let fc :=
      if pfx.isPrefixOf l0 then
        if replace then stripLoop pfx l0 r0 else (l0, r0)
      else (l0, r0)
    some (noticeBlock pfx notice ++ fc.1 ++ crlf ++ fc.2)

/-- Whether a character list contains the CRLF sequence (used to describe the
CRLF-separated segments of a notice). -/
def hasCRLF : List Char → Bool
  | [] => false
  | c :: rest =>
    if c = '\r' ∧ rest.head? = some '\n' then true else hasCRLF rest

/-- Joins segments with CRLF separators: the notice whose CRLF-separated
segment list is the given list. -/
def joinCRLF : List (List Char) → List Char
  | [] => []
  | [s] => s
  | s :: rest => s ++ '\r' :: '\n' :: joinCRLF rest

/-- Per-destination-file run state: the sticky overwrite flag
`mAlwaysOverwriteFiles` (src/main.cpp line 228), the current content of the
destination file (`none` when no file exists at the destination path), and
the accumulated created-file counter of `iterate`/`execute`. -/
structure RunState where
  alwaysOverwrite : Bool
  destContent : Option (List Char)
  filesCreated : Nat
deriving DecidableEq

/-- Result of one `create_file` call: whether the overwrite prompt was shown,
the boolean return value (whether a file was created), and the state after
the call. -/
structure CreateResult where
  prompted : Bool
  created : Bool
  state : RunState
deriving DecidableEq

/-- The write phase of `create_file` (src/main.cpp lines 664-735): the
destination file is created (truncated to empty) by `wdul::fopen` with
`create_always` at line 666 before the source is first read at line 673, so
an empty source leaves an empty destination file and still returns true
(line 676); otherwise the full content is written and true is returned. -/
def writeDest (pfx notice : List Char) (replace : Bool) (src : List Char)
    (prompted : Bool) (st : RunState) : CreateResult :=
  match createFileContent pfx notice replace src with
  | none => ⟨prompted, true, ⟨st.alwaysOverwrite, some [], st.filesCreated⟩⟩
  | some out => ⟨prompted, true, ⟨st.alwaysOverwrite, some out, st.filesCreated⟩⟩

/-- `program::instance::create_file` (src/main.cpp lines 626-735) as a state
transition.  When the overwrite flag is not set and the destination file
exists (lines 646-662), the user is prompted: answering no returns false and
touches nothing; answering yes sets the sticky flag and proceeds.  Otherwise
no prompt is shown and the write proceeds. -/
def create_file (pfx notice : List Char) (replace : Bool) (src : List Char)
    (answer : Bool) (st : RunState) : CreateResult :=
  if !st.alwaysOverwrite then
    if st.destContent.isSome then
      if answer then
        writeDest pfx notice replace src true ⟨true, st.destContent, st.filesCreated⟩
      else ⟨true, false, st⟩
    else writeDest pfx notice replace src false st
  else writeDest pfx notice replace src false st

/-- The initial value of the sticky overwrite flag, from the member
initializer `bool mAlwaysOverwriteFiles = false;` (src/main.cpp line 228). -/
def alwaysOverwriteInit : Bool := false

/-- One step of the `iterate` loop (src/main.cpp lines 611-614): call
`create_file` and increment the created-file counter exactly when it
returned true. -/
def iterStep (pfx notice : List Char) (replace : Bool) (src : List Char)
    (answer : Bool) (st : RunState) : RunState :=
  ⟨(create_file pfx notice replace src answer st).state.alwaysOverwrite,
   (create_file pfx notice replace src answer st).state.destContent,
   (create_file pfx notice replace src answer st).state.filesCreated +
     (if (create_file pfx notice replace src answer st).created then 1 else 0)⟩

/-- A directory entry as enumerated by FindFirstFile/FindNextFile: its name,
its hidden attribute, and (for directories) its child entries. -/
inductive fsEntry where
  | dir (name : List Char) (hidden : Bool) (children : List fsEntry)
  | file (name : List Char) (hidden : Bool)

/-- The `directory_argument` structure (src/main.cpp lines 175-179): a source
and a destination directory path. -/
structure directory_argument where
  src : List Char
  dst : List Char
deriving DecidableEq

/-- The test at src/main.cpp line 533 skipping the current and parent
directory entries, whose names are "." and "..". -/
def isDotName (n : List Char) : Bool := n = ['.'] ∨ n = ['.', '.']

/-- The enumeration loop of `program::instance::target_directories`
(src/main.cpp lines 521-547) over the child entries of `dirs.src`: files,
hidden entries and the "." and ".." entries are skipped; every other
directory yields a new pair, obtained by appending a backslash (only if the
source is non-empty, line 540) and the child name to the source and a
backslash and the child name to the destination, which is emitted and then
expanded recursively, depth first, before the remaining siblings. -/
def target_directories_loop (dirs : directory_argument) :
    List fsEntry → List directory_argument
  | [] => []
  | .file _ _ :: rest => target_directories_loop dirs rest
  | .dir name hidden children :: rest =>
    if hidden then target_directories_loop dirs rest
    else if isDotName name then target_directories_loop dirs rest
    else
      (⟨(if dirs.src = [] then dirs.src else dirs.src ++ ['\\']) ++ name,
        (dirs.dst ++ ['\\']) ++ name⟩ : directory_argument) ::
        (target_directories_loop
            ⟨(if dirs.src = [] then dirs.src else dirs.src ++ ['\\']) ++ name,
             (dirs.dst ++ ['\\']) ++ name⟩ children ++
          target_directories_loop dirs rest)

/-- `program::instance::target_directories` (src/main.cpp lines 499-554):
with `/recurse` unset it returns immediately (line 504) and contributes no
new pairs; otherwise it runs the enumeration loop over the children of the
pair's source directory. -/
def target_directories (recurse : Bool) (dirs : directory_argument)
    (children : List fsEntry) : List directory_argument :=
  if recurse then target_directories_loop dirs children else []

theorem splitLine_snd_length_le : ∀ s : List Char, (splitLine s).2.length ≤ s.length := by
  intro s
  induction s with
  | nil => simp [splitLine]
  | cons c rest ih =>
    simp only [splitLine]
    split
    · simp
    · split
      · cases rest <;> simp_all <;> omega
      · simpa using Nat.le_succ_of_le ih

theorem splitLine_snd_length_lt (c : Char) (rest : List Char) :
    (splitLine (c :: rest)).2.length < (c :: rest).length := by
  simp only [splitLine]
  split
  · simp
  · split
    · cases rest <;> simp <;> omega
    · simpa using Nat.lt_succ_of_le (splitLine_snd_length_le rest)

theorem splitLine_snd_length_lt_of_ne {s : List Char} (h : ¬s = []) :
    (splitLine s).2.length < s.length := by
  cases s with
  | nil => exact absurd rfl h
  | cons c rest => exact splitLine_snd_length_lt c rest

theorem splitLine_no_newline {L : List Char} (h : '\n' ∉ L) : splitLine L = (L, []) := by
  induction L with
  | nil => rfl
  | cons c rest ih =>
    have hc : ¬c = '\n' := fun he => h (he ▸ List.mem_cons_self c rest)
    have hr : '\n' ∉ rest := fun he => h (List.mem_cons_of_mem c he)
    have hh : ¬(c = '\r' ∧ rest.head? = some '\n') := by
      rintro ⟨-, hhd⟩
      cases rest with
      | nil => simp at hhd
      | cons d t =>
        simp only [List.head?_cons, Option.some.injEq] at hhd
        exact hr (hhd ▸ List.mem_cons_self d t)
    simp [splitLine, hc, hh, ih hr]

theorem splitLine_crlf {L R : List Char} (h : '\n' ∉ L) :
    splitLine (L ++ '\r' :: '\n' :: R) = (L, R) := by
  induction L with
  | nil => simp [splitLine]
  | cons c rest ih =>
    have hc : ¬c = '\n' := fun he => h (he ▸ List.mem_cons_self c rest)
    have hr : '\n' ∉ rest := fun he => h (List.mem_cons_of_mem c he)
    have hh : ¬(c = '\r' ∧ (rest ++ '\r' :: '\n' :: R).head? = some '\n') := by
      rintro ⟨-, hhd⟩
      cases rest with
      | nil => simp at hhd
      | cons d t =>
        simp only [List.cons_append, List.head?_cons, Option.some.injEq] at hhd
        exact hr (hhd ▸ List.mem_cons_self d t)
    rw [List.cons_append]
    simp only [splitLine]
    rw [if_neg hc, if_neg hh, ih hr]

theorem splitLine_lf {L R : List Char} (h : '\n' ∉ L) (h2 : L.getLast? ≠ some '\r') :
    splitLine (L ++ '\n' :: R) = (L, R) := by
  induction L with
  | nil => simp [splitLine]
  | cons c rest ih =>
    have hc : ¬c = '\n' := fun he => h (he ▸ List.mem_cons_self c rest)
    have hr : '\n' ∉ rest := fun he => h (List.mem_cons_of_mem c he)
    have hh : ¬(c = '\r' ∧ (rest ++ '\n' :: R).head? = some '\n') := by
      rintro ⟨hcr, hhd⟩
      cases rest with
      | nil =>
        exact h2 (by simp [hcr])
      | cons d t =>
        simp only [List.cons_append, List.head?_cons, Option.some.injEq] at hhd
        exact hr (hhd ▸ List.mem_cons_self d t)
    have h2' : rest.getLast? ≠ some '\r' := by
      cases rest with
      | nil => simp
      | cons d t =>
        intro he
        exact h2 (by rwa [List.getLast?_cons_cons])
    rw [List.cons_append]
    simp only [splitLine]
    rw [if_neg hc, if_neg hh, ih hr h2']

theorem noticeBlockAux_crlf (pfx rest : List Char) :
    noticeBlockAux pfx ('\r' :: '\n' :: rest) = crlf ++ pfx ++ noticeBlockAux pfx rest := rfl

theorem noticeBlockAux_cons (pfx : List Char) (c : Char) (rest : List Char)
    (h : ¬(c = '\r' ∧ rest.head? = some '\n')) :
    noticeBlockAux pfx (c :: rest) = c :: noticeBlockAux pfx rest := by
  rw [noticeBlockAux.eq_def]
  split
  · rename_i heq
    exact absurd heq (by simp)
  · rename_i rest' heq
    rw [List.cons.injEq] at heq
    exact absurd ⟨heq.1, by rw [heq.2]; rfl⟩ h
  · rename_i c' rest' hno heq
    rw [List.cons.injEq] at heq
    rw [heq.1, heq.2]

theorem noticeBlockAux_no_crlf {s : List Char} (pfx : List Char) (h : hasCRLF s = false) :
    noticeBlockAux pfx s = s ++ crlf := by
  induction s with
  | nil => rfl
  | cons c rest ih =>
    simp only [hasCRLF] at h
    split at h
    · simp at h
    · rw [noticeBlockAux_cons pfx c rest (by assumption), ih h]
      rfl

theorem noticeBlockAux_append_crlf {s : List Char} (pfx t : List Char) (h : hasCRLF s = false) :
    noticeBlockAux pfx (s ++ '\r' :: '\n' :: t) =
      s ++ crlf ++ pfx ++ noticeBlockAux pfx t := by
  induction s with
  | nil => simp [noticeBlockAux_crlf]
  | cons c rest ih =>
    simp only [hasCRLF] at h
    split at h
    · simp at h
    · have hcond : ¬(c = '\r' ∧ (rest ++ '\r' :: '\n' :: t).head? = some '\n') := by
        rename_i hno
        rintro ⟨hcr, hhd⟩
        cases rest with
        | nil => simp at hhd
        | cons d u => exact hno ⟨hcr, by simpa using hhd⟩
      rw [List.cons_append, noticeBlockAux_cons pfx c _ hcond, ih h]
      simp

theorem noticeBlock_no_crlf {s : List Char} (pfx : List Char) (h : hasCRLF s = false) :
    noticeBlock pfx s = pfx ++ s ++ crlf := by
  rw [noticeBlock, noticeBlockAux_no_crlf pfx h, List.append_assoc]

theorem noticeBlock_join (pfx : List Char) :
    ∀ segs : List (List Char), segs ≠ [] → (∀ s ∈ segs, hasCRLF s = false) →
      noticeBlock pfx (joinCRLF segs) = (segs.map fun s => pfx ++ s ++ crlf).flatten := by
  intro segs
  induction segs with
  | nil => intro h; exact absurd rfl h
  | cons s rest ih =>
    intro _ hall
    cases rest with
    | nil =>
      simp only [joinCRLF, List.map_cons, List.map_nil, List.flatten_cons, List.flatten_nil]
      rw [noticeBlock_no_crlf pfx (hall s (List.mem_cons_self s []))]
      simp
    | cons s2 rest2 =>
      have hs : hasCRLF s = false := hall s (List.mem_cons_self s _)
      have hrest : ∀ u ∈ s2 :: rest2, hasCRLF u = false :=
        fun u hu => hall u (List.mem_cons_of_mem s hu)
      have hne : s2 :: rest2 ≠ [] := List.cons_ne_nil s2 rest2
      rw [show joinCRLF (s :: s2 :: rest2) = s ++ '\r' :: '\n' :: joinCRLF (s2 :: rest2) from rfl]
      rw [noticeBlock, noticeBlockAux_append_crlf pfx _ hs]
      have hI := ih hne hrest
      rw [noticeBlock] at hI
      simp only [List.map_cons, List.flatten_cons] at hI ⊢
      rw [← hI]
      simp

theorem freadline_cons (c : Char) (rest : List Char) :
    freadline (c :: rest) = some (splitLine (c :: rest)) := rfl

theorem freadline_ne_nil {s : List Char} (h : s ≠ []) :
    freadline s = some (splitLine s) := by
  cases s with
  | nil => exact absurd rfl h
  | cons c rest => rfl

/-- For every non-empty source, the written destination content is the notice
block, some retained line, an unconditional CRLF, and some remainder of the
source. -/
theorem createFileContent_shape (pfx notice : List Char) (replace : Bool)
    (c : Char) (s : List Char) :
    ∃ a b, createFileContent pfx notice replace (c :: s) =
      some (noticeBlock pfx notice ++ a ++ crlf ++ b) := by
  rw [createFileContent, freadline_cons]
  exact ⟨_, _, rfl⟩

/-- When the comment-stripping loop is not entered (the first line is not a
comment, or `/replace` is unset), the destination content is the notice block
followed by the first line, a CRLF, and the remaining content. -/
theorem createFileContent_split (pfx notice : List Char) (replace : Bool)
    {src line rest : List Char} (hsrc : src ≠ [])
    (hsl : splitLine src = (line, rest))
    (hok : pfx.isPrefixOf line = false ∨ replace = false) :
    createFileContent pfx notice replace src =
      some (noticeBlock pfx notice ++ line ++ crlf ++ rest) := by
  rw [createFileContent, freadline_ne_nil hsrc, hsl]
  rcases hok with h | h
  · simp [h]
  · cases hp : pfx.isPrefixOf line <;> simp [hp, h]

theorem stripLoop_nil (pfx prev : List Char) : stripLoop pfx prev [] = (prev, []) := by
  rw [stripLoop]
  simp

theorem stripLeadingComments_nil (pfx : List Char) : stripLeadingComments pfx [] = [] := by
  rw [stripLeadingComments]
  simp

/-- The code's comment-stripping loop agrees with the specification-side
stripping of leading comment lines whenever the retained first code line is
CRLF-terminated in the source. -/
theorem stripLoop_eq_of_stripLeadingComments (pfx : List Char) :
    ∀ n s prev L R, s.length ≤ n → '\n' ∉ L →
      stripLeadingComments pfx s = L ++ '\r' :: '\n' :: R →
      stripLoop pfx prev s = (L, R) := by
  intro n
  induction n with
  | zero =>
    intro s prev L R hlen _ heq
    have hs : s = [] := List.eq_nil_of_length_eq_zero (Nat.le_zero.mp hlen)
    rw [hs, stripLeadingComments_nil] at heq
    have hc := congrArg List.length heq
    simp at hc
    omega
  | succ n ih =>
    intro s prev L R hlen hL heq
    by_cases hs : s = []
    · rw [hs, stripLeadingComments_nil] at heq
      have hc := congrArg List.length heq
      simp at hc
      omega
    · rw [stripLeadingComments, if_neg hs] at heq
      rw [stripLoop, if_neg hs]
      by_cases hp : pfx.isPrefixOf (splitLine s).1
      · rw [if_pos hp] at heq ⊢
        refine ih (splitLine s).2 (splitLine s).1 L R ?_ hL heq
        have := splitLine_snd_length_lt_of_ne hs
        omega
      · rw [if_neg hp] at heq ⊢
        rw [heq]
        exact splitLine_crlf hL

/-- Claim C1, counterexample: for the one-byte source file "a" (first line not
starting with the comment prefix and not CRLF-terminated), the destination is
not the notice block followed by the original content byte-for-byte — the
rewrite appends a CRLF after the retained first line. -/
theorem c1_counterexample :
    (['/', '/', ' '] : List Char).isPrefixOf (splitLine ['a']).1 = false ∧
    createFileContent ['/', '/', ' '] ['n'] false ['a'] ≠
      some (noticeBlock ['/', '/', ' '] ['n'] ++ ['a']) := by
  constructor
  · decide
  · decide

/-- Claim C1 (amended): for every source file whose first line does not start
with the comment prefix and is CRLF-terminated, the destination produced by
the rewrite equals the notice block followed by the original source content,
byte-for-byte, for both values of replaceExisting. -/
theorem c1_notice_plus_content (pfx notice : List Char) (replace : Bool)
    (line rest : List Char) (hnl : '\n' ∉ line) (hnp : pfx.isPrefixOf line = false) :
    createFileContent pfx notice replace (line ++ '\r' :: '\n' :: rest) =
      some (noticeBlock pfx notice ++ (line ++ '\r' :: '\n' :: rest)) := by
  have hsrc : line ++ '\r' :: '\n' :: rest ≠ [] := by cases line <;> simp
  rw [createFileContent_split pfx notice replace hsrc (splitLine_crlf hnl) (Or.inl hnp)]
  simp [crlf, List.append_assoc]

/-- Claim C1, witness for the amended theorem at a concrete input. -/
theorem c1_witness :
    createFileContent ['/', '/', ' '] ['n'] false (['a'] ++ '\r' :: '\n' :: ['b']) =
      some (noticeBlock ['/', '/', ' '] ['n'] ++ (['a'] ++ '\r' :: '\n' :: ['b'])) :=
  c1_notice_plus_content ['/', '/', ' '] ['n'] false ['a'] ['b'] (by decide) (by decide)

/-- Claim C2: for every notice that splits into k CRLF-separated segments
(k at least 1, the final segment empty when the notice ends with CRLF), the
destination file begins with exactly those k comment lines, each equal to
prefix, segment, CRLF, in the segments' original order. -/
theorem c2_notice_block_lines (pfx : List Char) (segs : List (List Char))
    (hne : segs ≠ []) (hall : ∀ s ∈ segs, hasCRLF s = false) :
    noticeBlock pfx (joinCRLF segs) = (segs.map fun s => pfx ++ s ++ crlf).flatten ∧
    ∀ (replace : Bool) (c : Char) (s : List Char), ∃ tail,
      createFileContent pfx (joinCRLF segs) replace (c :: s) =
        some ((segs.map fun s => pfx ++ s ++ crlf).flatten ++ tail) := by
  refine ⟨noticeBlock_join pfx segs hne hall, ?_⟩
  intro replace c s
  obtain ⟨a, b, hab⟩ := createFileContent_shape pfx (joinCRLF segs) replace c s
  refine ⟨a ++ crlf ++ b, ?_⟩
  rw [hab, noticeBlock_join pfx segs hne hall]
  simp [List.append_assoc]

/-- Claim C2, witness at a concrete input: the notice "a" followed by CRLF has
the two segments "a" and "", and the block has exactly two comment lines. -/
theorem c2_witness :
    noticeBlock ['/', '/', ' '] (joinCRLF [['a'], []]) =
      (([['a'], []] : List (List Char)).map fun s => ['/', '/', ' '] ++ s ++ crlf).flatten :=
  (c2_notice_block_lines ['/', '/', ' '] [['a'], []] (by decide) (by decide)).1

/-- Claim C3, counterexample: for the source "// c" CRLF "co" (a leading
comment line, first code line not CRLF-terminated) with replaceExisting set,
the destination content after the notice block is not the source content with
its leading comment lines stripped — the rewrite appends an extra CRLF. -/
theorem c3_counterexample :
    (['/', '/', ' '] : List Char).isPrefixOf
        (splitLine ['/', '/', ' ', 'c', '\r', '\n', 'c', 'o']).1 = true ∧
    createFileContent ['/', '/', ' '] ['n'] true ['/', '/', ' ', 'c', '\r', '\n', 'c', 'o'] ≠
      some (noticeBlock ['/', '/', ' '] ['n'] ++
        stripLeadingComments ['/', '/', ' '] ['/', '/', ' ', 'c', '\r', '\n', 'c', 'o']) := by
  have h1 : stripLeadingComments ['/', '/', ' '] ['/', '/', ' ', 'c', '\r', '\n', 'c', 'o'] =
      ['c', 'o'] := by
    rw [stripLeadingComments]
    simp [splitLine, List.isPrefixOf]
    rw [stripLeadingComments]
    simp [splitLine, List.isPrefixOf]
  have h2 : stripLoop ['/', '/', ' '] ['/', '/', ' ', 'c'] ['c', 'o'] = (['c', 'o'], []) := by
    rw [stripLoop]
    simp [splitLine, List.isPrefixOf]
  have h3 : createFileContent ['/', '/', ' '] ['n'] true
      ['/', '/', ' ', 'c', '\r', '\n', 'c', 'o'] =
      some (noticeBlock ['/', '/', ' '] ['n'] ++ ['c', 'o'] ++ crlf) := by
    have hsl : splitLine ['/', '/', ' ', 'c', '\r', '\n', 'c', 'o'] =
        (['/', '/', ' ', 'c'], ['c', 'o']) := by decide
    rw [createFileContent, freadline_ne_nil (by decide), hsl]
    simp [List.isPrefixOf, h2]
  refine ⟨by decide, ?_⟩
  rw [h3, h1]
  decide

/-- Claim C3 (amended): with replaceExisting true and the first source line a
comment, the destination content after the notice block equals the source
content with all leading prefix-prefixed lines stripped, provided the first
retained non-comment line exists and is CRLF-terminated; with replaceExisting
false, the destination equals the notice block followed by the original
content unchanged, provided the first line is CRLF-terminated. -/
theorem c3_strip_or_prepend (pfx notice : List Char) :
    (∀ src l0 r0 L R, freadline src = some (l0, r0) → pfx.isPrefixOf l0 = true →
      '\n' ∉ L → stripLeadingComments pfx src = L ++ '\r' :: '\n' :: R →
      createFileContent pfx notice true src =
        some (noticeBlock pfx notice ++ stripLeadingComments pfx src)) ∧
    (∀ line rest, '\n' ∉ line →
      createFileContent pfx notice false (line ++ '\r' :: '\n' :: rest) =
        some (noticeBlock pfx notice ++ (line ++ '\r' :: '\n' :: rest))) := by
  constructor
  · intro src l0 r0 L R hfr hpf hL heq
    have hsrc : src ≠ [] := by
      intro h
      rw [h] at hfr
      simp [freadline] at hfr
    have hsl : splitLine src = (l0, r0) := by
      rw [freadline_ne_nil hsrc] at hfr
      exact Option.some_injective _ hfr
    have hstrip : stripLeadingComments pfx r0 = L ++ '\r' :: '\n' :: R := by
      rw [stripLeadingComments, if_neg hsrc, hsl] at heq
      rwa [if_pos hpf] at heq
    have hloop : stripLoop pfx l0 r0 = (L, R) :=
      stripLoop_eq_of_stripLeadingComments pfx r0.length r0 l0 L R le_rfl hL hstrip
    rw [createFileContent, freadline_ne_nil hsrc, hsl, heq]
    simp [hpf, hloop, crlf, List.append_assoc]
  · intro line rest hnl
    have hsrc : line ++ '\r' :: '\n' :: rest ≠ [] := by cases line <;> simp
    rw [createFileContent_split pfx notice false hsrc (splitLine_crlf hnl) (Or.inr rfl)]
    simp [crlf, List.append_assoc]

/-- Claim C3, witness for the amended theorem at a concrete input. -/
theorem c3_witness :
    createFileContent ['/', '/', ' '] ['n'] true
        ['/', '/', ' ', 'c', '\r', '\n', 'c', 'o', '\r', '\n', 'z'] =
      some (noticeBlock ['/', '/', ' '] ['n'] ++
        stripLeadingComments ['/', '/', ' ']
          ['/', '/', ' ', 'c', '\r', '\n', 'c', 'o', '\r', '\n', 'z']) :=
  (c3_strip_or_prepend ['/', '/', ' '] ['n']).1
    ['/', '/', ' ', 'c', '\r', '\n', 'c', 'o', '\r', '\n', 'z']
    ['/', '/', ' ', 'c'] ['c', 'o', '\r', '\n', 'z'] ['c', 'o'] ['z']
    (by decide) (by decide) (by decide)
    (by
      rw [stripLeadingComments]
      simp [splitLine, List.isPrefixOf]
      rw [stripLeadingComments]
      simp [splitLine, List.isPrefixOf])

/-- Claim C4, counterexample: for an empty source file (with no pre-existing
destination, so no prompt), the call returns true, an empty destination file
is created (the destination is opened with create-always before the source is
read), and the created-file counter is incremented to 1 — contradicting the
claim that no destination file is created and that the counter reports zero. -/
theorem c4_counterexample :
    (create_file ['/', '/', ' '] ['n'] false [] true ⟨false, none, 0⟩).created = true ∧
    (create_file ['/', '/', ' '] ['n'] false [] true ⟨false, none, 0⟩).state.destContent =
      some [] ∧
    (iterStep ['/', '/', ' '] ['n'] false [] true ⟨false, none, 0⟩).filesCreated = 1 ∧
    ¬((create_file ['/', '/', ' '] ['n'] false [] true ⟨false, none, 0⟩).state.destContent =
        none ∧
      (iterStep ['/', '/', ' '] ['n'] false [] true ⟨false, none, 0⟩).filesCreated = 0) := by
  refine ⟨?_, ?_, ?_, ?_⟩ <;> decide

/-- Claim C4 (amended): for every empty source file, the rewrite logs and
returns true; since the destination file is opened with create-always before
the source is read, an empty destination file is left behind and the
created-file counter is incremented — unless the call is stopped earlier by a
declined overwrite prompt. -/
theorem c4_empty_source (pfx notice : List Char) (replace answer : Bool) (st : RunState)
    (h : ¬(st.alwaysOverwrite = false ∧ st.destContent.isSome = true ∧ answer = false)) :
    (create_file pfx notice replace [] answer st).created = true ∧
    (create_file pfx notice replace [] answer st).state.destContent = some [] ∧
    (iterStep pfx notice replace [] answer st).filesCreated = st.filesCreated + 1 := by
  obtain ⟨ao, dc, n⟩ := st
  have hcc : createFileContent pfx notice replace [] = none := rfl
  cases ao <;> rcases dc with _ | d <;> cases answer <;>
    simp_all [create_file, writeDest, iterStep, hcc]

/-- Claim C4, witness for the amended theorem at a concrete input. -/
theorem c4_witness :
    (create_file ['/'] ['n'] false [] true ⟨false, none, 3⟩).created = true ∧
    (create_file ['/'] ['n'] false [] true ⟨false, none, 3⟩).state.destContent = some [] ∧
    (iterStep ['/'] ['n'] false [] true ⟨false, none, 3⟩).filesCreated = 3 + 1 :=
  c4_empty_source ['/'] ['n'] false true ⟨false, none, 3⟩ (by decide)

/-- Claim C5: the overwrite policy starts as ask-every-time (the flag is
initially false), a call prompts exactly when the flag is unset and the
destination exists (so while the flag is set no call prompts), and after a
call the flag is set if and only if it was already set or the prompt was
answered affirmatively — so the flag flips exactly on an affirmative answer
and never reverts. -/
theorem c5_overwrite_policy_sticky (pfx notice : List Char) (replace : Bool)
    (src : List Char) (answer : Bool) (st : RunState) :
    alwaysOverwriteInit = false ∧
    (create_file pfx notice replace src answer st).prompted =
      (!st.alwaysOverwrite && st.destContent.isSome) ∧
    (create_file pfx notice replace src answer st).state.alwaysOverwrite =
      (st.alwaysOverwrite ||
        ((create_file pfx notice replace src answer st).prompted && answer)) := by
  obtain ⟨ao, dc, n⟩ := st
  refine ⟨rfl, ?_, ?_⟩ <;>
    cases ao <;> rcases dc with _ | d <;> cases answer <;>
      simp only [create_file, writeDest] <;>
      rcases h : createFileContent pfx notice replace src with _ | out <;>
        simp [h]

/-- Claim C6: when the destination file already exists, the policy is
ask-every-time and the user answers the overwrite prompt negatively, the call
returns false after prompting, the whole run state — including the
pre-existing destination content — is left unchanged, and the created-file
counter is not incremented. -/
theorem c6_decline_untouched (pfx notice : List Char) (replace : Bool)
    (src d : List Char) (st : RunState)
    (h1 : st.alwaysOverwrite = false) (h2 : st.destContent = some d) :
    create_file pfx notice replace src false st = ⟨true, false, st⟩ ∧
    (iterStep pfx notice replace src false st).filesCreated = st.filesCreated := by
  have hcf : create_file pfx notice replace src false st = ⟨true, false, st⟩ := by
    simp [create_file, h1, h2]
  exact ⟨hcf, by simp [iterStep, hcf]⟩

/-- Claim C6, witness at a concrete input. -/
theorem c6_witness :
    create_file ['/'] ['n'] false ['a'] false ⟨false, some ['q'], 2⟩ =
      ⟨true, false, ⟨false, some ['q'], 2⟩⟩ ∧
    (iterStep ['/'] ['n'] false ['a'] false ⟨false, some ['q'], 2⟩).filesCreated = 2 :=
  c6_decline_untouched ['/'] ['n'] false ['a'] ['q'] ⟨false, some ['q'], 2⟩ rfl rfl

/-- Claim C7: with recurse false the directory expansion contributes no
additional pairs; with recurse true over a directory A (destination O) whose
children are the dot entries, non-hidden subdirectories B and C, a file, and
a hidden subdirectory, the pairs used are exactly A, A backslash B and A
backslash C, once each, with destinations mirroring the same child names
under O, and the hidden entry and the dot entries are skipped. -/
theorem c7_directory_expansion :
    (∀ (dirs : directory_argument) (es : List fsEntry),
      target_directories false dirs es = []) ∧
    (⟨['A'], ['O']⟩ : directory_argument) ::
        target_directories true ⟨['A'], ['O']⟩
          [.dir ['.'] false [], .dir ['.', '.'] false [],
           .dir ['B'] false [.dir ['.'] false [], .dir ['.', '.'] false []],
           .file ['f'] false,
           .dir ['H'] true [.dir ['X'] false []],
           .dir ['C'] false []] =
      [⟨['A'], ['O']⟩, ⟨['A', '\\', 'B'], ['O', '\\', 'B']⟩,
       ⟨['A', '\\', 'C'], ['O', '\\', 'C']⟩] ∧
    ([⟨['A'], ['O']⟩, ⟨['A', '\\', 'B'], ['O', '\\', 'B']⟩,
      ⟨['A', '\\', 'C'], ['O', '\\', 'C']⟩] : List directory_argument).Nodup := by
  refine ⟨fun dirs es => by simp [target_directories], ?_, by decide⟩
  simp [target_directories, target_directories_loop, isDotName]

/-- Claim C8: with the overwrite policy pre-set to always-overwrite, running
the rewrite twice with the same notice, prefix, flags and source content
produces byte-identical destination files both times — the written content is
a deterministic function of the inputs. -/
theorem c8_rerun_identical (pfx notice : List Char) (replace : Bool)
    (src : List Char) (a1 a2 : Bool) (st : RunState)
    (h : st.alwaysOverwrite = true) :
    (create_file pfx notice replace src a2
        (create_file pfx notice replace src a1 st).state).state.destContent =
      (create_file pfx notice replace src a1 st).state.destContent := by
  rcases hc : createFileContent pfx notice replace src with _ | out <;>
    simp [create_file, writeDest, h, hc]

/-- Claim C8, witness at a concrete input. -/
theorem c8_witness :
    (create_file ['/'] ['n'] false ['a'] false
        (create_file ['/'] ['n'] false ['a'] true ⟨true, none, 0⟩).state).state.destContent =
      (create_file ['/'] ['n'] false ['a'] true ⟨true, none, 0⟩).state.destContent :=
  c8_rerun_identical ['/'] ['n'] false ['a'] true false ⟨true, none, 0⟩ rfl

/-- Claim C9: for an empty notice text the do-while loop still runs once, so
the notice block is exactly one comment line — the prefix followed by CRLF —
and for any non-empty source the destination starts with that line followed
by the retained content; an empty notice is not rejected and does not produce
zero notice lines. -/
theorem c9_empty_notice_one_line (pfx : List Char) (replace : Bool) (c : Char)
    (s : List Char) :
    noticeBlock pfx [] = pfx ++ crlf ∧
    ∃ a b, createFileContent pfx [] replace (c :: s) =
      some ((pfx ++ crlf) ++ a ++ crlf ++ b) := by
  have hb : noticeBlock pfx [] = pfx ++ crlf := rfl
  refine ⟨hb, ?_⟩
  obtain ⟨a, b, hab⟩ := createFileContent_shape pfx [] replace c s
  exact ⟨a, b, by rw [hab, hb]⟩

/-- Claim C10: for every non-empty source file, the retained first code line
is written followed by an unconditional CRLF terminator — the same output is
produced whether that line ended with CRLF, a bare LF, or no terminator at
all in the source — and only the bytes after the first line are stream-copied
unmodified after it. -/
theorem c10_unconditional_crlf (pfx notice : List Char) (line rest : List Char)
    (hnl : '\n' ∉ line) :
    createFileContent pfx notice false (line ++ '\r' :: '\n' :: rest) =
      some (noticeBlock pfx notice ++ line ++ crlf ++ rest) ∧
    (line.getLast? ≠ some '\r' →
      createFileContent pfx notice false (line ++ '\n' :: rest) =
        some (noticeBlock pfx notice ++ line ++ crlf ++ rest)) ∧
    (line ≠ [] →
      createFileContent pfx notice false line =
        some (noticeBlock pfx notice ++ line ++ crlf)) ∧
    (∀ (replace : Bool) (c : Char) (s : List Char), ∃ a b,
      createFileContent pfx notice replace (c :: s) =
        some (noticeBlock pfx notice ++ a ++ crlf ++ b)) := by
  refine ⟨?_, ?_, ?_, fun replace c s => createFileContent_shape pfx notice replace c s⟩
  · have hsrc : line ++ '\r' :: '\n' :: rest ≠ [] := by cases line <;> simp
    exact createFileContent_split pfx notice false hsrc (splitLine_crlf hnl) (Or.inr rfl)
  · intro hlast
    have hsrc : line ++ '\n' :: rest ≠ [] := by cases line <;> simp
    exact createFileContent_split pfx notice false hsrc (splitLine_lf hnl hlast) (Or.inr rfl)
  · intro hne
    rw [createFileContent_split pfx notice false hne (splitLine_no_newline hnl) (Or.inr rfl)]
    simp

/-- Claim C10, witness at concrete inputs: source "a" with CRLF, bare LF and
no terminator, each followed by the same remainder, all yield the same
destination content. -/
theorem c10_witness :
    createFileContent ['/'] ['n'] false (['a'] ++ '\r' :: '\n' :: ['b']) =
      some (noticeBlock ['/'] ['n'] ++ ['a'] ++ crlf ++ ['b']) ∧
    createFileContent ['/'] ['n'] false (['a'] ++ '\n' :: ['b']) =
      some (noticeBlock ['/'] ['n'] ++ ['a'] ++ crlf ++ ['b']) ∧
    createFileContent ['/'] ['n'] false ['a'] =
      some (noticeBlock ['/'] ['n'] ++ ['a'] ++ crlf) :=
  ⟨(c10_unconditional_crlf ['/'] ['n'] ['a'] ['b'] (by decide)).1,
   (c10_unconditional_crlf ['/'] ['n'] ['a'] ['b'] (by decide)).2.1 (by decide),
   (c10_unconditional_crlf ['/'] ['n'] ['a'] ['b'] (by decide)).2.2.1 (by decide)⟩

end Copynotice
